import Mathlib

/-!
# simplekvstore: a verification development

Shallow embedding of `main.go` (package `simplekvstore`): the `Store` type, its
constructor `New`, the writer `Set` and the readers `Get`, `GetAll`, `GetClone`,
`GetWithPrefix`, `GetKeysContaining`, `GetValuesContaining`.

Modelling conventions.
* A Go `string` is an immutable byte sequence: `GoString = List UInt8`.
* A Go `map[string]KeyValue` is a finite collection of entries with pairwise
  distinct keys (`GoMap`).  The order of `entries` is the order in which a
  `range` loop visits them; Go leaves that order unspecified, and every theorem
  about a scan below is stated up to order (membership, multiplicity).
* A Go slice built by `make([]T, 0, n)` or `[]T{}` and grown by `append` is a
  `List`; such a slice is never nil.
* The non-nil values of the interface type `error` that this package can build
  are `GoError`; the interface value itself is `Option GoError`, `none` being nil.
* Methods with a pointer receiver are written in state-passing style: `Set`
  returns the updated store.  The embedded `sync.Mutex` has no effect on the
  result of a sequential run and is not part of the state.
* A `GoMap` is an initialised map, as made by `make`.  The nil map of a `Store`
  that was not returned by `New` is outside the model.
* Aliasing between the store and a map handed to the caller is treated in the
  section on maps as references, where map values are addresses into a heap.
* What each method does with the mutex, and where it touches the map, is
  recorded in program order in the section on lock discipline.  Interleavings
  of concurrent calls are not modelled.
-/

namespace SimpleKV

/-- Go `string`: an immutable sequence of bytes. -/
abbrev GoString := List UInt8

/-- Bytes of an ASCII string literal, used to write keys and values readably. -/
def ascii (s : String) : GoString := s.data.map (fun c => UInt8.ofNat c.toNat)

/-! ## Standard library functions used by the package -/

/-- `strings.HasPrefix(s, prefix)`:
`len(s) >= len(prefix) && s[:len(prefix)] == prefix`. -/
def HasPrefix (s pre : GoString) : Bool :=
  decide (s.length ≥ pre.length) && decide (s.take pre.length = pre)

/-- Search loop of `strings.Index`: the first offset, counted from `i`, at which
`substr` occurs in `s`, or `-1`. -/
def indexFrom (substr : GoString) (i : Nat) : GoString → Int
  | [] => if HasPrefix [] substr then (i : Int) else -1
  | c :: s => if HasPrefix (c :: s) substr then (i : Int) else indexFrom substr (i + 1) s

/-- `strings.Index(s, substr)`: index of the first instance of `substr` in `s`,
or `-1` if `substr` is not present in `s`. -/
def Index (s substr : GoString) : Int := indexFrom substr 0 s

/-- `strings.Contains(s, substr)`: `Index(s, substr) >= 0`. -/
def Contains (s substr : GoString) : Bool := decide (Index s substr ≥ 0)

/-! ## Errors -/

/-- Non-nil `error` values: the value made by `errors.New(text)` and the
struct `KeyError{Key, Err}`. -/
inductive GoError where
  | errorString (text : GoString)
  | KeyError (Key : GoString) (Err : GoError)
  deriving DecidableEq, Repr

/-- Source: `var ErrNotFound = errors.New("key does not exist")`. -/
def ErrNotFound : GoError := GoError.errorString (ascii "key does not exist")

/-- Method `Error()`: for `KeyError` it is `ke.Err.Error() + ": " + ke.Key`. -/
def GoError.Error : GoError → GoString
  | GoError.errorString text => text
  | GoError.KeyError Key Err => Err.Error ++ ascii ": " ++ Key

/-! ## Records and maps -/

/-- Source: `type KeyValue struct { Key string; Value string }`. -/
structure KeyValue where
  Key : GoString
  Value : GoString
  deriving DecidableEq, Repr

/-- Zero value of `KeyValue`, what `m[key]` yields for an absent key. -/
def KeyValue.zero : KeyValue := ⟨[], []⟩

/-- Entry lookup by key. -/
def lookupEntries (key : GoString) : List (GoString × KeyValue) → Option KeyValue
  | [] => none
  | (k, v) :: rest => if k = key then some v else lookupEntries key rest

/-- Entry update: overwrite the entry for `key` when there is one, add a new
entry otherwise. -/
def assignEntries (key : GoString) (v : KeyValue) :
    List (GoString × KeyValue) → List (GoString × KeyValue)
  | [] => [(key, v)]
  | (k, w) :: rest =>
    if k = key then (key, v) :: rest else (k, w) :: assignEntries key v rest

theorem keys_assignEntries (key : GoString) (v : KeyValue) (es : List (GoString × KeyValue)) :
    (assignEntries key v es).map Prod.fst =
      if key ∈ es.map Prod.fst then es.map Prod.fst else es.map Prod.fst ++ [key] := by
  induction es with
  | nil => simp [assignEntries]
  | cons e rest ih =>
    obtain ⟨k, w⟩ := e
    by_cases hk : k = key
    · simp [assignEntries, hk]
    · have hk2 : ¬ key = k := fun h => hk h.symm
      simp only [assignEntries, hk, if_false, List.map_cons, ih, List.mem_cons, hk2, false_or]
      split <;> simp

theorem nodup_assignEntries (key : GoString) (v : KeyValue) (es : List (GoString × KeyValue))
    (h : (es.map Prod.fst).Nodup) : ((assignEntries key v es).map Prod.fst).Nodup := by
  rw [keys_assignEntries]
  split
  · exact h
  · rename_i hmem
    rw [List.nodup_append]
    refine ⟨h, List.nodup_singleton _, ?_⟩
    intro a ha hb
    simp at hb
    subst hb
    exact hmem ha

/-- Go `map[string]KeyValue`: entries with pairwise distinct keys. -/
structure GoMap where
  entries : List (GoString × KeyValue)
  nodup : (entries.map Prod.fst).Nodup

/-- Source: `make(map[string]KeyValue)`: the empty map. -/
def GoMap.make : GoMap := ⟨[], List.nodup_nil⟩

/-- Source: `kv, ok := m[key]`: the stored record and `true`, or the zero
value and `false`. -/
def GoMap.index (m : GoMap) (key : GoString) : KeyValue × Bool :=
  match lookupEntries key m.entries with
  | some kv => (kv, true)
  | none => (KeyValue.zero, false)

/-- Source: `m[key] = v`. -/
def GoMap.assign (m : GoMap) (key : GoString) (v : KeyValue) : GoMap :=
  ⟨assignEntries key v m.entries, nodup_assignEntries key v m.entries m.nodup⟩

/-- Source: `len(m)`. -/
def GoMap.len (m : GoMap) : Nat := m.entries.length

/-! ## The store -/

/-- Source: `type Store struct { sync.Mutex; m map[string]KeyValue }`. -/
structure Store where
  m : GoMap

/-- Source: `func New() Store { return Store{m: make(map[string]KeyValue)} }`. -/
def New : Store := ⟨GoMap.make⟩

/-- Source: `func (s *Store) Set(key, value string)`:
`s.m[key] = KeyValue{Key: key, Value: value}` between `Lock` and `Unlock`. -/
def Store.Set (s : Store) (key value : GoString) : Store :=
  ⟨s.m.assign key ⟨key, value⟩⟩

/-- Source: `func (s *Store) Get(key string) (KeyValue, error)`. -/
def Store.Get (s : Store) (key : GoString) : KeyValue × Option GoError :=
  let (kv, ok) := s.m.index key
  if ok then (kv, none) else (kv, some (GoError.KeyError key ErrNotFound))

/-- Source: `func (s *Store) GetAll() []KeyValue`: one `append` per entry
visited by `range s.m`. -/
def Store.GetAll (s : Store) : List KeyValue :=
  s.m.entries.foldl (fun values e => values ++ [e.2]) []

/-- Source: `func (s *Store) GetClone() map[string]KeyValue`: a fresh map
filled by `values[value.Key] = value` for each entry visited by `range s.m`. -/
def Store.GetClone (s : Store) : GoMap :=
  s.m.entries.foldl (fun values e => values.assign e.2.Key e.2) GoMap.make

/-- Source: `func (s *Store) GetWithPrefix(prefix string) []KeyValue`. -/
def Store.GetWithPrefix (s : Store) (pre : GoString) : List KeyValue :=
  s.m.entries.foldl
    (fun keys e => if HasPrefix e.1 pre then keys ++ [e.2] else keys) []

/-- Source: `func (s *Store) GetKeysContaining(str string) []KeyValue`. -/
def Store.GetKeysContaining (s : Store) (str : GoString) : List KeyValue :=
  s.m.entries.foldl
    (fun keys e => if Contains e.1 str then keys ++ [e.2] else keys) []

/-- Source: `func (s *Store) GetValuesContaining(str string) []KeyValue`. -/
def Store.GetValuesContaining (s : Store) (str : GoString) : List KeyValue :=
  s.m.entries.foldl
    (fun keys e => if Contains e.2.Value str then keys ++ [e.2] else keys) []

/-- A finite sequence of `Set` calls, given by their `(key, value)` arguments,
applied in order to a store. -/
def applySets (ops : List (GoString × GoString)) (s : Store) : Store :=
  ops.foldl (fun st kv => st.Set kv.1 kv.2) s

/-- Data-model invariant: every stored record carries the key it is stored under. -/
def Store.KeyInv (s : Store) : Prop := ∀ e ∈ s.m.entries, e.2.Key = e.1

instance (s : Store) : Decidable s.KeyInv := by
  unfold Store.KeyInv; infer_instance

/-- The value written by the last `Set` call on `key` in a sequence of calls,
if there is such a call. -/
def lastValue (key : GoString) : List (GoString × GoString) → Option GoString
  | [] => none
  | (k, v) :: rest =>
    match lastValue key rest with
    | some w => some w
    | none => if k = key then some v else none

/-! ## Maps as references

A Go map value is a reference to a map object, and `*Store` points to a struct
whose field `m` holds such a reference.  To speak about aliasing between the
store and the map returned by `GetClone`, map objects are placed in a heap and
map values are addresses.  The operations below are the same source functions,
written against the heap. -/

/-- Address of a map object. -/
abbrev MapRef := Nat

/-- The map objects allocated so far; the address of an object is its position. -/
structure Heap where
  objs : List GoMap

/-- The map object at an address. -/
def Heap.read (h : Heap) (a : MapRef) : GoMap := h.objs.getD a GoMap.make

/-- Replace the map object at an address. -/
def Heap.write (h : Heap) (a : MapRef) (m : GoMap) : Heap := ⟨h.objs.set a m⟩

/-- Source: `make(map[string]KeyValue)`: a new empty map object at a fresh address. -/
def Heap.alloc (h : Heap) : MapRef × Heap := (h.objs.length, ⟨h.objs ++ [GoMap.make]⟩)

/-- Source: `m[key] = v` through the map reference `a`. -/
def Heap.assign (h : Heap) (a : MapRef) (key : GoString) (v : KeyValue) : Heap :=
  h.write a ((h.read a).assign key v)

/-- The struct `Store` in memory: its field `m` is a map reference. -/
structure StoreRef where
  m : MapRef

/-- The store as a value: the content of the map object its field refers to. -/
def StoreRef.view (s : StoreRef) (h : Heap) : Store := ⟨h.read s.m⟩

/-- Source: `Store.Set`, on the heap: `s.m[key] = KeyValue{Key: key, Value: value}`. -/
def StoreRef.Set (s : StoreRef) (h : Heap) (key value : GoString) : Heap :=
  h.assign s.m key ⟨key, value⟩

/-- Source: `Store.Get`, on the heap. -/
def StoreRef.Get (s : StoreRef) (h : Heap) (key : GoString) : KeyValue × Option GoError :=
  let (kv, ok) := (h.read s.m).index key
  if ok then (kv, none) else (kv, some (GoError.KeyError key ErrNotFound))

/-- Source: `Store.GetClone`, on the heap: `values := make(map[string]KeyValue)`,
then `values[value.Key] = value` for each entry visited by `range s.m`; the
result is the reference `values`. -/
def StoreRef.GetClone (s : StoreRef) (h : Heap) : MapRef × Heap :=
  let (values, h1) := h.alloc
  (values, (h1.read s.m).entries.foldl (fun hp e => hp.assign values e.2.Key e.2) h1)

/-! ## One call on a store in memory

Every exported method as one step on the heap: what it returns, and the heap
after the call.  A method whose body contains no assignment to a map returns
the heap it was given. -/

/-- A method call with its arguments. -/
inductive Call where
  | Set (key value : GoString)
  | Get (key : GoString)
  | GetAll
  | GetClone
  | GetWithPrefix (pre : GoString)
  | GetKeysContaining (str : GoString)
  | GetValuesContaining (str : GoString)
  deriving DecidableEq, Repr

/-- The read operations: every method but `Set`. -/
def Call.isRead : Call → Bool
  | Call.Set _ _ => false
  | _ => true

/-- What a call hands back to its caller. -/
inductive Returned where
  | nothing
  | record (kv : KeyValue) (err : Option GoError)
  | slice (values : List KeyValue)
  | mapRef (values : MapRef)
  deriving DecidableEq, Repr

/-- Run one call on the store `s` in the heap `h`. -/
def StoreRef.call (s : StoreRef) (h : Heap) : Call → Returned × Heap
  | Call.Set key value => (Returned.nothing, s.Set h key value)
  | Call.Get key => (Returned.record (s.Get h key).1 (s.Get h key).2, h)
  | Call.GetAll => (Returned.slice (s.view h).GetAll, h)
  | Call.GetClone => (Returned.mapRef (s.GetClone h).1, (s.GetClone h).2)
  | Call.GetWithPrefix pre => (Returned.slice ((s.view h).GetWithPrefix pre), h)
  | Call.GetKeysContaining str => (Returned.slice ((s.view h).GetKeysContaining str), h)
  | Call.GetValuesContaining str => (Returned.slice ((s.view h).GetValuesContaining str), h)

/-! ## Lock discipline

What a method does with the mutex of the store and with the map `s.m`, in
program order.  A `range s.m` loop is one `rangeBegin` followed by one
`rangeNext` per entry visited. -/

/-- An operation on the mutex or an access to the map `s.m`. -/
inductive Access where
  | lock
  | unlock
  | mapLen
  | mapIndex (key : GoString)
  | mapAssign (key : GoString)
  | rangeBegin
  | rangeNext (key : GoString)
  deriving DecidableEq, Repr

/-- The accesses of a `range s.m` loop. -/
def rangeAccesses (s : Store) : List Access :=
  Access.rangeBegin :: s.m.entries.map (fun e => Access.rangeNext e.1)

/-- Source: `Set`: `s.Lock()`, `s.m[key] = ...`, `s.Unlock()`. -/
def Store.SetAccesses (_s : Store) (key _value : GoString) : List Access :=
  [Access.lock, Access.mapAssign key, Access.unlock]

/-- Source: `Get`: `kv, ok := s.m[key]`, no call on the mutex. -/
def Store.GetAccesses (_s : Store) (key : GoString) : List Access :=
  [Access.mapIndex key]

/-- Source: `GetAll`: `len(s.m)`, then `range s.m`, no call on the mutex. -/
def Store.GetAllAccesses (s : Store) : List Access :=
  Access.mapLen :: rangeAccesses s

/-- Source: `GetClone`: `range s.m`, no call on the mutex. -/
def Store.GetCloneAccesses (s : Store) : List Access :=
  rangeAccesses s

/-- Source: `GetWithPrefix`: `s.Lock()`, `defer s.Unlock()`, `range s.m`; the
deferred `Unlock` runs at the return. -/
def Store.GetWithPrefixAccesses (s : Store) (_pre : GoString) : List Access :=
  Access.lock :: rangeAccesses s ++ [Access.unlock]

/-- Source: `GetKeysContaining`: `s.Lock()`, `defer s.Unlock()`, `range s.m`. -/
def Store.GetKeysContainingAccesses (s : Store) (_str : GoString) : List Access :=
  Access.lock :: rangeAccesses s ++ [Access.unlock]

/-- Source: `GetValuesContaining`: `s.Lock()`, `defer s.Unlock()`, `range s.m`. -/
def Store.GetValuesContainingAccesses (s : Store) (_str : GoString) : List Access :=
  Access.lock :: rangeAccesses s ++ [Access.unlock]

/-- Whether every access to the map in a run happens while the mutex is held,
`held` telling whether it is held at the start. -/
def lockHeldFrom (held : Bool) : List Access → Bool
  | [] => true
  | Access.lock :: rest => lockHeldFrom true rest
  | Access.unlock :: rest => lockHeldFrom false rest
  | _ :: rest => held && lockHeldFrom held rest

/-- Whether a method, called with the mutex free, holds the lock at each of its
accesses to the map. -/
def lockHeld (run : List Access) : Bool := lockHeldFrom false run

/-! ## Lemmas on strings -/

theorem HasPrefix_iff (s pre : GoString) : HasPrefix s pre = true ↔ pre <+: s := by
  unfold HasPrefix
  rw [Bool.and_eq_true, decide_eq_true_iff, decide_eq_true_iff, List.prefix_iff_eq_take]
  constructor
  · rintro ⟨_, h⟩
    exact h.symm
  · intro h
    refine ⟨?_, h.symm⟩
    have := congrArg List.length h
    rw [List.length_take] at this
    omega

theorem indexFrom_nonneg_iff (substr : GoString) (s : GoString) (i : Nat) :
    0 ≤ indexFrom substr i s ↔ substr <:+: s := by
  induction s generalizing i with
  | nil =>
    unfold indexFrom
    by_cases h : HasPrefix [] substr = true
    · have hp := (HasPrefix_iff _ _).1 h
      simp [h, hp.isInfix]
    · have hp : ¬ substr <+: [] := fun hp => h ((HasPrefix_iff _ _).2 hp)
      have hi : ¬ substr <:+: [] := by
        intro hi
        apply hp
        rw [List.infix_nil] at hi
        rw [hi]
      simp only [h]
      simp [hi]
  | cons c s ih =>
    unfold indexFrom
    by_cases h : HasPrefix (c :: s) substr = true
    · have hp := (HasPrefix_iff _ _).1 h
      simp [h, hp.isInfix]
    · have hp : ¬ substr <+: c :: s := fun hp => h ((HasPrefix_iff _ _).2 hp)
      simp only [h]
      rw [if_neg (by simp), ih, List.infix_cons_iff]
      simp [hp]

theorem Contains_iff (s substr : GoString) : Contains s substr = true ↔ substr <:+: s := by
  unfold Contains Index
  rw [decide_eq_true_iff]
  exact indexFrom_nonneg_iff substr s 0

/-! ## Lemmas on maps -/

theorem lookup_assignEntries_same (key : GoString) (v : KeyValue)
    (es : List (GoString × KeyValue)) :
    lookupEntries key (assignEntries key v es) = some v := by
  induction es with
  | nil => simp [assignEntries, lookupEntries]
  | cons e rest ih =>
    obtain ⟨k, w⟩ := e
    by_cases hk : k = key
    · simp [assignEntries, lookupEntries, hk]
    · simp [assignEntries, lookupEntries, hk, ih]

theorem lookup_assignEntries_other (key k2 : GoString) (v : KeyValue)
    (es : List (GoString × KeyValue)) (h : k2 ≠ key) :
    lookupEntries k2 (assignEntries key v es) = lookupEntries k2 es := by
  have h2 : ¬ key = k2 := fun e => h e.symm
  induction es with
  | nil => simp [assignEntries, lookupEntries, h2]
  | cons e rest ih =>
    obtain ⟨k, w⟩ := e
    by_cases hk : k = key
    · subst hk
      simp [assignEntries, lookupEntries, h2]
    · by_cases hk2 : k = k2
      · subst hk2
        simp [assignEntries, lookupEntries, hk]
      · simp [assignEntries, lookupEntries, hk, hk2, ih]

theorem lookupEntries_eq_some_iff (es : List (GoString × KeyValue))
    (hnd : (es.map Prod.fst).Nodup) (k : GoString) (r : KeyValue) :
    lookupEntries k es = some r ↔ (k, r) ∈ es := by
  induction es with
  | nil => simp [lookupEntries]
  | cons e rest ih =>
    obtain ⟨k0, w⟩ := e
    rw [List.map_cons, List.nodup_cons] at hnd
    by_cases hk : k0 = k
    · subst hk
      have hno : ∀ r : KeyValue, (k0, r) ∉ rest := fun r hr =>
        hnd.1 (List.mem_map.2 ⟨(k0, r), hr, rfl⟩)
      simp only [lookupEntries, if_true, Option.some.injEq, List.mem_cons, Prod.mk.injEq,
        true_and, hno, or_false]
      exact eq_comm
    · have hk2 : ¬ k = k0 := fun e => hk e.symm
      simp only [lookupEntries, hk, if_false, List.mem_cons, Prod.mk.injEq, hk2, false_and,
        false_or]
      exact ih hnd.2

theorem lookupEntries_eq_none_iff (es : List (GoString × KeyValue)) (k : GoString) :
    lookupEntries k es = none ↔ k ∉ es.map Prod.fst := by
  induction es with
  | nil => simp [lookupEntries]
  | cons e rest ih =>
    obtain ⟨k0, w⟩ := e
    by_cases hk : k0 = k
    · simp [lookupEntries, hk]
    · have hk2 : ¬ k = k0 := fun e => hk e.symm
      simp only [lookupEntries, hk, if_false, ih, List.map_cons, List.mem_cons, hk2, false_or]

theorem mem_assignEntries (key : GoString) (v : KeyValue) (es : List (GoString × KeyValue))
    (e : GoString × KeyValue) (h : e ∈ assignEntries key v es) : e = (key, v) ∨ e ∈ es := by
  induction es with
  | nil => simpa [assignEntries] using h
  | cons e0 rest ih =>
    obtain ⟨k, w⟩ := e0
    by_cases hk : k = key
    · simp only [assignEntries, hk, if_true, List.mem_cons] at h
      rcases h with h | h
      · exact Or.inl h
      · exact Or.inr (List.mem_cons_of_mem _ h)
    · simp only [assignEntries, hk, if_false, List.mem_cons] at h
      rcases h with h | h
      · exact Or.inr (h ▸ List.mem_cons_self _ _)
      · rcases ih h with h | h
        · exact Or.inl h
        · exact Or.inr (List.mem_cons_of_mem _ h)

/-- The loop shape shared by every scan: `append` the record of each visited
entry that passes the test. -/
theorem foldl_append_filter (p : GoString × KeyValue → Bool) (es : List (GoString × KeyValue))
    (init : List KeyValue) :
    es.foldl (fun keys e => if p e = true then keys ++ [e.2] else keys) init
      = init ++ (es.filter p).map Prod.snd := by
  induction es generalizing init with
  | nil => simp
  | cons e rest ih =>
    rw [List.foldl_cons, ih]
    by_cases hp : p e = true
    · simp [hp]
    · simp [hp]

/-! ## Lemmas on the store operations -/

theorem Get_eq_found_iff (s : Store) (k : GoString) (r : KeyValue) :
    s.Get k = (r, none) ↔ (k, r) ∈ s.m.entries := by
  rw [← lookupEntries_eq_some_iff _ s.m.nodup]
  unfold Store.Get GoMap.index
  cases h : lookupEntries k s.m.entries <;> simp

theorem Get_error (s : Store) (k : GoString) :
    (s.Get k).2 =
      if k ∈ s.m.entries.map Prod.fst then none else some (GoError.KeyError k ErrNotFound) := by
  unfold Store.Get GoMap.index
  cases h : lookupEntries k s.m.entries with
  | none =>
    have := (lookupEntries_eq_none_iff _ _).1 h
    simp [this]
  | some kv =>
    have : k ∈ s.m.entries.map Prod.fst := by
      by_contra hc
      rw [(lookupEntries_eq_none_iff _ _).2 hc] at h
      exact Option.noConfusion h
    simp [this]

theorem GetAll_eq (s : Store) : s.GetAll = s.m.entries.map Prod.snd := by
  have h := foldl_append_filter (fun _ => true) s.m.entries []
  simpa [Store.GetAll] using h

theorem GetWithPrefix_eq (s : Store) (pre : GoString) :
    s.GetWithPrefix pre = (s.m.entries.filter (fun e => HasPrefix e.1 pre)).map Prod.snd := by
  have h := foldl_append_filter (fun e => HasPrefix e.1 pre) s.m.entries []
  simpa [Store.GetWithPrefix] using h

theorem GetKeysContaining_eq (s : Store) (str : GoString) :
    s.GetKeysContaining str
      = (s.m.entries.filter (fun e => Contains e.1 str)).map Prod.snd := by
  have h := foldl_append_filter (fun e => Contains e.1 str) s.m.entries []
  simpa [Store.GetKeysContaining] using h

theorem GetValuesContaining_eq (s : Store) (str : GoString) :
    s.GetValuesContaining str
      = (s.m.entries.filter (fun e => Contains e.2.Value str)).map Prod.snd := by
  have h := foldl_append_filter (fun e => Contains e.2.Value str) s.m.entries []
  simpa [Store.GetValuesContaining] using h

/-- In a store that satisfies the key invariant, a filtering scan returns
exactly the stored records that pass the test. -/
theorem mem_scan_iff (s : Store) (hinv : s.KeyInv) (p : GoString × KeyValue → Bool)
    (r : KeyValue) :
    r ∈ (s.m.entries.filter p).map Prod.snd ↔ s.Get r.Key = (r, none) ∧ p (r.Key, r) = true := by
  rw [Get_eq_found_iff, List.mem_map]
  constructor
  · rintro ⟨e, he, rfl⟩
    rw [List.mem_filter] at he
    have hk := hinv e he.1
    have hee : (e.2.Key, e.2) = e := by rw [hk]
    rw [hee]
    exact he
  · rintro ⟨hm, hp⟩
    exact ⟨(r.Key, r), List.mem_filter.2 ⟨hm, hp⟩, rfl⟩

/-- In a store that satisfies the key invariant, a filtering scan returns no
record twice. -/
theorem nodup_scan (s : Store) (hinv : s.KeyInv) (p : GoString × KeyValue → Bool) :
    ((s.m.entries.filter p).map Prod.snd).Nodup := by
  have hkeys : s.m.entries.map (KeyValue.Key ∘ Prod.snd) = s.m.entries.map Prod.fst :=
    List.map_congr_left (fun e he => hinv e he)
  have h1 : (s.m.entries.map Prod.snd).Nodup := by
    apply List.Nodup.of_map KeyValue.Key
    rw [List.map_map, hkeys]
    exact s.m.nodup
  exact h1.sublist ((List.filter_sublist _).map _)

theorem KeyInv_New : New.KeyInv := by
  intro e he
  simp [New, GoMap.make] at he

theorem KeyInv_Set (s : Store) (k v : GoString) (h : s.KeyInv) : (s.Set k v).KeyInv := by
  intro e he
  rcases mem_assignEntries k ⟨k, v⟩ s.m.entries e he with h1 | h1
  · rw [h1]
  · exact h e h1

theorem KeyInv_applySets (ops : List (GoString × GoString)) (s : Store) (h : s.KeyInv) :
    (applySets ops s).KeyInv := by
  induction ops generalizing s with
  | nil => exact h
  | cons op rest ih => exact ih (s.Set op.1 op.2) (KeyInv_Set s op.1 op.2 h)

theorem lookup_Set (s : Store) (k v k2 : GoString) :
    lookupEntries k2 (s.Set k v).m.entries =
      if k2 = k then some ⟨k, v⟩ else lookupEntries k2 s.m.entries := by
  by_cases h : k2 = k
  · subst h
    simp [Store.Set, GoMap.assign, lookup_assignEntries_same]
  · simp [Store.Set, GoMap.assign, lookup_assignEntries_other _ _ _ _ h, h]

theorem lastValue_cons (k k0 v0 : GoString) (rest : List (GoString × GoString)) :
    lastValue k ((k0, v0) :: rest) =
      match lastValue k rest with
      | some w => some w
      | none => if k0 = k then some v0 else none := rfl

/-- Content of a store after a sequence of `Set` calls: the last written value
for a key that was written, the old entry otherwise. -/
theorem lookup_applySets (ops : List (GoString × GoString)) (s : Store) (k : GoString) :
    lookupEntries k (applySets ops s).m.entries =
      match lastValue k ops with
      | some v => some ⟨k, v⟩
      | none => lookupEntries k s.m.entries := by
  induction ops generalizing s with
  | nil => simp [applySets, lastValue]
  | cons op rest ih =>
    obtain ⟨k0, v0⟩ := op
    have hstep : applySets ((k0, v0) :: rest) s = applySets rest (s.Set k0 v0) := rfl
    rw [hstep, ih, lookup_Set, lastValue_cons]
    cases hl : lastValue k rest with
    | some w => simp
    | none =>
      by_cases hk : k0 = k
      · subst hk
        simp
      · have hk2 : ¬ k = k0 := fun e => hk e.symm
        simp [hk, hk2]

theorem lastValue_eq_none_iff (k : GoString) (ops : List (GoString × GoString)) :
    lastValue k ops = none ↔ k ∉ ops.map Prod.fst := by
  induction ops with
  | nil => simp [lastValue]
  | cons op rest ih =>
    obtain ⟨k0, v0⟩ := op
    rw [lastValue_cons]
    cases hl : lastValue k rest with
    | some w =>
      have : k ∈ rest.map Prod.fst := by
        by_contra hc
        rw [ih.2 hc] at hl
        exact Option.noConfusion hl
      simp [this]
    | none =>
      have hno := ih.1 hl
      by_cases hk : k0 = k
      · simp [hk]
      · have hk2 : ¬ k = k0 := fun e => hk e.symm
        simpa [hk, hk2] using hno

/-- The function `lastValue` picks the value of the last call on the key: the
call after which the key is not written again. -/
theorem lastValue_eq_some_iff (k v : GoString) (ops : List (GoString × GoString)) :
    lastValue k ops = some v ↔
      ∃ before after, ops = before ++ (k, v) :: after ∧ k ∉ after.map Prod.fst := by
  induction ops with
  | nil => simp [lastValue]
  | cons op rest ih =>
    obtain ⟨k0, v0⟩ := op
    rw [lastValue_cons]
    cases hl : lastValue k rest with
    | some w =>
      rw [hl] at ih
      simp only [Option.some.injEq] at ih ⊢
      constructor
      · intro hw
        obtain ⟨b, a, hba, hna⟩ := ih.1 hw
        exact ⟨(k0, v0) :: b, a, by rw [hba]; rfl, hna⟩
      · rintro ⟨b, a, hba, hna⟩
        cases b with
        | nil =>
          simp only [List.nil_append, List.cons.injEq] at hba
          rw [hba.2, (lastValue_eq_none_iff k a).2 hna] at hl
          exact Option.noConfusion hl
        | cons b0 b =>
          simp only [List.cons_append, List.cons.injEq] at hba
          exact ih.2 ⟨b, a, hba.2, hna⟩
    | none =>
      rw [hl] at ih
      have hno := (lastValue_eq_none_iff k rest).1 hl
      constructor
      · intro h
        by_cases hk : k0 = k
        · simp only [hk, if_true, Option.some.injEq] at h
          exact ⟨[], rest, by rw [hk, h]; rfl, hno⟩
        · simp [hk] at h
      · rintro ⟨b, a, hba, hna⟩
        cases b with
        | nil =>
          simp only [List.nil_append, List.cons.injEq, Prod.mk.injEq] at hba
          simp [hba.1.1, hba.1.2]
        | cons b0 b =>
          simp only [List.cons_append, List.cons.injEq] at hba
          exact absurd (ih.2 ⟨b, a, hba.2, hna⟩) (by simp)

/-- Copy loop of `GetClone` with the map key as the key of the copy. -/
theorem lookup_foldl_assign (es : List (GoString × KeyValue)) (hnd : (es.map Prod.fst).Nodup)
    (m0 : GoMap) (k : GoString) :
    lookupEntries k (es.foldl (fun values e => values.assign e.1 e.2) m0).entries =
      match lookupEntries k es with
      | some r => some r
      | none => lookupEntries k m0.entries := by
  induction es generalizing m0 with
  | nil => simp [lookupEntries]
  | cons e rest ih =>
    obtain ⟨k0, w⟩ := e
    rw [List.map_cons, List.nodup_cons] at hnd
    rw [List.foldl_cons, ih hnd.2]
    by_cases hk : k0 = k
    · subst hk
      have hnone := (lookupEntries_eq_none_iff rest k0).2 hnd.1
      simp [hnone, lookupEntries, GoMap.assign, lookup_assignEntries_same]
    · have hk2 : k ≠ k0 := fun e => hk e.symm
      simp [lookupEntries, hk, GoMap.assign, lookup_assignEntries_other _ _ _ _ hk2]

theorem foldl_clone_congr (es : List (GoString × KeyValue)) (h : ∀ e ∈ es, e.2.Key = e.1)
    (m0 : GoMap) :
    es.foldl (fun values e => values.assign e.2.Key e.2) m0
      = es.foldl (fun values e => values.assign e.1 e.2) m0 := by
  induction es generalizing m0 with
  | nil => rfl
  | cons e rest ih =>
    rw [List.foldl_cons, List.foldl_cons, h e (List.mem_cons_self _ _)]
    exact ih (fun e2 he2 => h e2 (List.mem_cons_of_mem _ he2)) _

theorem GetClone_index (s : Store) (h : s.KeyInv) (k : GoString) :
    s.GetClone.index k = s.m.index k := by
  unfold GoMap.index Store.GetClone
  rw [foldl_clone_congr _ h, lookup_foldl_assign _ s.m.nodup]
  cases hl : lookupEntries k s.m.entries <;> simp [GoMap.make, lookupEntries]

theorem mem_GetAll_iff (s : Store) (hinv : s.KeyInv) (r : KeyValue) :
    r ∈ s.GetAll ↔ s.Get r.Key = (r, none) := by
  have h := mem_scan_iff s hinv (fun _ => true) r
  rw [GetAll_eq]
  simpa using h

theorem Get_applySets_found_iff (ops : List (GoString × GoString)) (r : KeyValue) :
    (applySets ops New).Get r.Key = (r, none) ↔ lastValue r.Key ops = some r.Value := by
  rw [Get_eq_found_iff, ← lookupEntries_eq_some_iff _ (applySets ops New).m.nodup,
    lookup_applySets]
  cases hl : lastValue r.Key ops with
  | none => simp [New, GoMap.make, lookupEntries]
  | some w =>
    simp only [Option.some.injEq]
    constructor
    · intro h
      rw [← h]
    · intro h
      rw [h]

/-! ## Lemmas on the heap -/

theorem Heap.read_write_ne (h : Heap) (a b : MapRef) (m : GoMap) (hab : a ≠ b) :
    (h.write a m).read b = h.read b := by
  simp [Heap.read, Heap.write, List.getD_eq_getElem?_getD, List.getElem?_set_ne hab]

theorem Heap.read_write_same (h : Heap) (a : MapRef) (m : GoMap) (ha : a < h.objs.length) :
    (h.write a m).read a = m := by
  simp [Heap.read, Heap.write, List.getD_eq_getElem?_getD, ha]

theorem Heap.length_write (h : Heap) (a : MapRef) (m : GoMap) :
    (h.write a m).objs.length = h.objs.length := by
  simp [Heap.write]

theorem Heap.read_alloc (h : Heap) (a : MapRef) (ha : a < h.objs.length) :
    h.alloc.2.read a = h.read a := by
  simp [Heap.read, Heap.alloc, List.getD_eq_getElem?_getD, List.getElem?_append_left ha]

theorem Heap.read_alloc_new (h : Heap) : h.alloc.2.read h.alloc.1 = GoMap.make := by
  simp [Heap.read, Heap.alloc, List.getD_eq_getElem?_getD]

/-- The copy loop writes to the map object `values` only. -/
theorem clone_loop_frame (values : MapRef) (es : List (GoString × KeyValue)) (h : Heap)
    (a : MapRef) (ha : a ≠ values) :
    (es.foldl (fun hp e => hp.assign values e.2.Key e.2) h).read a = h.read a := by
  induction es generalizing h with
  | nil => rfl
  | cons e rest ih =>
    rw [List.foldl_cons, ih]
    exact Heap.read_write_ne _ _ _ _ (fun e => ha e.symm)

/-- The copy loop on the heap computes, in the object `values`, what the copy
loop on map values computes. -/
theorem clone_loop_content (values : MapRef) (es : List (GoString × KeyValue)) (h : Heap)
    (hv : values < h.objs.length) :
    (es.foldl (fun hp e => hp.assign values e.2.Key e.2) h).read values
      = es.foldl (fun m e => m.assign e.2.Key e.2) (h.read values) := by
  induction es generalizing h with
  | nil => rfl
  | cons e rest ih =>
    rw [List.foldl_cons, List.foldl_cons, ih]
    · rw [Heap.assign, Heap.read_write_same _ _ _ hv]
    · rw [Heap.assign, Heap.length_write]
      exact hv

theorem GetClone_fst (s : StoreRef) (h : Heap) : (s.GetClone h).1 = h.objs.length := rfl

/-- After `GetClone`, every map object that existed before is as it was. -/
theorem GetClone_frame (s : StoreRef) (h : Heap) (a : MapRef) (ha : a < h.objs.length) :
    (s.GetClone h).2.read a = h.read a := by
  have hne : a ≠ h.alloc.1 := Nat.ne_of_lt ha
  show ((h.alloc.2.read s.m).entries.foldl
    (fun hp e => hp.assign h.alloc.1 e.2.Key e.2) h.alloc.2).read a = h.read a
  rw [clone_loop_frame _ _ _ _ hne, Heap.read_alloc _ _ ha]

/-- The map object returned by `GetClone` on the heap holds the map computed by
`Store.GetClone` on the content of the store. -/
theorem GetClone_content (s : StoreRef) (h : Heap) (hs : s.m < h.objs.length) :
    (s.GetClone h).2.read (s.GetClone h).1 = (s.view h).GetClone := by
  show ((h.alloc.2.read s.m).entries.foldl
    (fun hp e => hp.assign h.alloc.1 e.2.Key e.2) h.alloc.2).read h.alloc.1 = _
  rw [clone_loop_content, Heap.read_alloc_new, Heap.read_alloc _ _ hs]
  · rfl
  · simp [Heap.alloc]

theorem StoreRef.Get_eq (s : StoreRef) (h : Heap) (key : GoString) :
    s.Get h key = (s.view h).Get key := rfl

/-! ## The claims -/

/-- C1: for every store s, every key k and every value v, after Set(k, v) on s
the call Get(k) returns the record KeyValue{Key: k, Value: v} together with a
nil error. -/
theorem C1_get_after_set (s : Store) (k v : GoString) :
    (s.Set k v).Get k = (⟨k, v⟩, none) := by
  rw [Get_eq_found_iff, ← lookupEntries_eq_some_iff _ (s.Set k v).m.nodup, lookup_Set]
  simp

/-- C2: on a store built from New() by a finite sequence of Set calls, Get(k)
returns a nil error when k is the key of one of those calls, and otherwise
returns exactly the error KeyError{Key: k, Err: ErrNotFound}, which carries the
requested key. -/
theorem C2_get_error (ops : List (GoString × GoString)) (k : GoString) :
    ((applySets ops New).Get k).2 =
      if k ∈ ops.map Prod.fst then none else some (GoError.KeyError k ErrNotFound) := by
  rw [Get_error]
  have hkeys : k ∈ (applySets ops New).m.entries.map Prod.fst ↔ k ∈ ops.map Prod.fst := by
    rw [← not_iff_not, ← lookupEntries_eq_none_iff, ← lastValue_eq_none_iff, lookup_applySets]
    cases hl : lastValue k ops <;> simp [New, GoMap.make, lookupEntries]
  by_cases hk : k ∈ ops.map Prod.fst
  · rw [if_pos hk, if_pos (hkeys.2 hk)]
  · rw [if_neg hk, if_neg (fun h => hk (hkeys.1 h))]

/-- C3: GetAll() on New() is the empty sequence, and after any finite sequence
of Set calls applied to New() a record (k, v) is in the result of GetAll()
exactly when some call Set(k, v) of the sequence is the last call on the key k
(last write wins). -/
theorem C3_getall_last_write_wins (ops : List (GoString × GoString)) :
    New.GetAll = [] ∧
    ∀ r : KeyValue, r ∈ (applySets ops New).GetAll ↔
      ∃ before after, ops = before ++ (r.Key, r.Value) :: after ∧
        r.Key ∉ after.map Prod.fst := by
  refine ⟨rfl, fun r => ?_⟩
  rw [mem_GetAll_iff _ (KeyInv_applySets ops New KeyInv_New), Get_applySets_found_iff,
    lastValue_eq_some_iff]

/-- C4: on a store built from New() by Set calls, a record is in the result of
GetWithPrefix(p) if and only if it is stored (Get on its key returns it with a
nil error) and its key starts with p; and no record appears twice in the
result. -/
theorem C4_getwithprefix_exact (ops : List (GoString × GoString)) (p : GoString) :
    (∀ r : KeyValue, r ∈ (applySets ops New).GetWithPrefix p ↔
      ((applySets ops New).Get r.Key = (r, none) ∧ p <+: r.Key)) ∧
    ((applySets ops New).GetWithPrefix p).Nodup := by
  have hinv := KeyInv_applySets ops New KeyInv_New
  rw [GetWithPrefix_eq]
  refine ⟨fun r => ?_, nodup_scan _ hinv _⟩
  rw [mem_scan_iff _ hinv, HasPrefix_iff]

/-- C5: on a store built from New() by Set calls, a record is in the result of
GetKeysContaining(str) if and only if it is stored and its key contains str as
a contiguous substring. -/
theorem C5_getkeyscontaining_exact (ops : List (GoString × GoString)) (str : GoString)
    (r : KeyValue) :
    r ∈ (applySets ops New).GetKeysContaining str ↔
      ((applySets ops New).Get r.Key = (r, none) ∧ str <:+: r.Key) := by
  rw [GetKeysContaining_eq, mem_scan_iff _ (KeyInv_applySets ops New KeyInv_New), Contains_iff]

/-- C6: on a store built from New() by Set calls, a record is in the result of
GetValuesContaining(str) if and only if it is stored and its value contains
str as a contiguous substring. -/
theorem C6_getvaluescontaining_exact (ops : List (GoString × GoString)) (str : GoString)
    (r : KeyValue) :
    r ∈ (applySets ops New).GetValuesContaining str ↔
      ((applySets ops New).Get r.Key = (r, none) ∧ str <:+: r.Value) := by
  rw [GetValuesContaining_eq, mem_scan_iff _ (KeyInv_applySets ops New KeyInv_New),
    Contains_iff]

/-- C7: the mapping returned by GetClone() has the content of the store's
mapping at call time: for every key, looking it up in the clone gives the same
presence flag and the same record as looking it up in the store.  A store is
what New() and Set build; its records carry the map key they are stored under,
which is the invariant the copy loop relies on when it keys the copy by the Key
field.  The statement is proved for every store with that invariant and for
every store built from New() by Set calls. -/
theorem C7_getclone_equal_content :
    (∀ (s : Store), s.KeyInv → ∀ k : GoString, s.GetClone.index k = s.m.index k) ∧
    (∀ (ops : List (GoString × GoString)) (k : GoString),
      (applySets ops New).GetClone.index k = (applySets ops New).m.index k) :=
  ⟨fun s h k => GetClone_index s h k,
   fun ops k => GetClone_index _ (KeyInv_applySets ops New KeyInv_New) k⟩

/-- C7, at the store holding "foo" -> ("foo", "baz") and the key "foo". -/
theorem C7_getclone_equal_content_witness :
    (New.Set (ascii "foo") (ascii "baz")).KeyInv ∧
    (New.Set (ascii "foo") (ascii "baz")).GetClone.index (ascii "foo")
      = (New.Set (ascii "foo") (ascii "baz")).m.index (ascii "foo") :=
  ⟨by decide,
   C7_getclone_equal_content.1 (New.Set (ascii "foo") (ascii "baz")) (by decide) (ascii "foo")⟩

/-- C8: the mapping returned by GetClone() is independent of the store.  For
every store s living in a heap, with c the map reference returned by
GetClone(): after the assignment c[k] = r, Get(k2) on s returns what it
returned before the assignment, for every key k2; and after a later Set(k, v)
on s, the map object behind c is what it was before that Set. -/
theorem C8_getclone_independent (h : Heap) (s : StoreRef) (hs : s.m < h.objs.length)
    (k : GoString) (r : KeyValue) (v : GoString) :
    (∀ k2 : GoString,
      s.Get ((s.GetClone h).2.assign (s.GetClone h).1 k r) k2 = s.Get (s.GetClone h).2 k2) ∧
    (s.Set (s.GetClone h).2 k v).read (s.GetClone h).1
      = (s.GetClone h).2.read (s.GetClone h).1 := by
  have hne : s.m ≠ (s.GetClone h).1 := by
    rw [GetClone_fst]
    exact Nat.ne_of_lt hs
  constructor
  · intro k2
    unfold StoreRef.Get Heap.assign
    rw [Heap.read_write_ne _ _ _ _ (fun e => hne e.symm)]
  · unfold StoreRef.Set Heap.assign
    rw [Heap.read_write_ne _ _ _ _ hne]

/-- C8, on the test of the source: the store holds "foo" -> ("foo", "baz"), the
clone entry "foo" is overwritten with ("bar", "bar"), the store is then written
with Set("foo", "qux"). -/
theorem C8_getclone_independent_witness :
    (StoreRef.mk 0).m < (Heap.mk [(New.Set (ascii "foo") (ascii "baz")).m]).objs.length ∧
    ((∀ k2 : GoString,
      (StoreRef.mk 0).Get
        (((StoreRef.mk 0).GetClone (Heap.mk [(New.Set (ascii "foo") (ascii "baz")).m])).2.assign
          ((StoreRef.mk 0).GetClone (Heap.mk [(New.Set (ascii "foo") (ascii "baz")).m])).1
          (ascii "foo") ⟨ascii "bar", ascii "bar"⟩) k2
      = (StoreRef.mk 0).Get
          ((StoreRef.mk 0).GetClone (Heap.mk [(New.Set (ascii "foo") (ascii "baz")).m])).2 k2) ∧
    ((StoreRef.mk 0).Set
        ((StoreRef.mk 0).GetClone (Heap.mk [(New.Set (ascii "foo") (ascii "baz")).m])).2
        (ascii "foo") (ascii "qux")).read
        ((StoreRef.mk 0).GetClone (Heap.mk [(New.Set (ascii "foo") (ascii "baz")).m])).1
      = ((StoreRef.mk 0).GetClone (Heap.mk [(New.Set (ascii "foo") (ascii "baz")).m])).2.read
        ((StoreRef.mk 0).GetClone (Heap.mk [(New.Set (ascii "foo") (ascii "baz")).m])).1) :=
  ⟨by decide,
   C8_getclone_independent (Heap.mk [(New.Set (ascii "foo") (ascii "baz")).m]) (StoreRef.mk 0)
     (by decide) (ascii "foo") ⟨ascii "bar", ascii "bar"⟩ (ascii "qux")⟩

/-- C9: New() establishes the key invariant (each stored record carries the
map key it is stored under), Set preserves it, and so it holds in every store
reached from New() by a finite sequence of Set calls: there, a record found
under a map key has that key in its Key field. -/
theorem C9_key_invariant :
    New.KeyInv ∧
    (∀ (s : Store) (k v : GoString), s.KeyInv → (s.Set k v).KeyInv) ∧
    (∀ (ops : List (GoString × GoString)) (k : GoString) (r : KeyValue),
      (applySets ops New).m.index k = (r, true) → r.Key = k) := by
  refine ⟨KeyInv_New, KeyInv_Set, ?_⟩
  intro ops k r h
  have hinv := KeyInv_applySets ops New KeyInv_New
  have hmem : (k, r) ∈ (applySets ops New).m.entries := by
    rw [← lookupEntries_eq_some_iff _ (applySets ops New).m.nodup]
    unfold GoMap.index at h
    cases hl : lookupEntries k (applySets ops New).m.entries with
    | none => rw [hl] at h; simp at h
    | some kv => rw [hl] at h; simp at h; rw [h]
  exact hinv _ hmem

/-- C9, at a concrete store: the invariant of New() carries over to the store
after Set("foo", "bar"), and the record found there under "foo" has Key "foo". -/
theorem C9_key_invariant_witness :
    New.KeyInv ∧ (New.Set (ascii "foo") (ascii "bar")).KeyInv ∧
    (applySets [(ascii "foo", ascii "bar")] New).m.index (ascii "foo")
      = (⟨ascii "foo", ascii "bar"⟩, true) ∧
    (⟨ascii "foo", ascii "bar"⟩ : KeyValue).Key = ascii "foo" :=
  ⟨C9_key_invariant.1,
   C9_key_invariant.2.1 New (ascii "foo") (ascii "bar") C9_key_invariant.1,
   by decide,
   C9_key_invariant.2.2 [(ascii "foo", ascii "bar")] (ascii "foo") ⟨ascii "foo", ascii "bar"⟩
     (by decide)⟩

/-- C10: on a store built from New() by Set calls, GetWithPrefix("") returns
all stored records: its result is a rearrangement of the result of GetAll(),
so the two are equal as unordered sets. -/
theorem C10_empty_prefix_is_getall (ops : List (GoString × GoString)) :
    ((applySets ops New).GetWithPrefix []).Perm (applySets ops New).GetAll ∧
    ∀ r : KeyValue, r ∈ (applySets ops New).GetWithPrefix [] ↔ r ∈ (applySets ops New).GetAll := by
  have h : (applySets ops New).GetWithPrefix [] = (applySets ops New).GetAll := by
    rw [GetWithPrefix_eq, GetAll_eq]
    congr 1
    apply List.filter_eq_self.2
    intro e _
    exact (HasPrefix_iff _ _).2 List.nil_prefix
  rw [h]
  exact ⟨List.Perm.refl _, fun _ => Iff.rfl⟩

/-! ## Lemmas for the claims on frames, errors and counts -/

theorem Get_eq_of_lookup (s t : Store) (k : GoString)
    (h : lookupEntries k s.m.entries = lookupEntries k t.m.entries) : s.Get k = t.Get k := by
  unfold Store.Get GoMap.index
  rw [h]

theorem index_eq_of_lookup (m n : GoMap) (k : GoString)
    (h : lookupEntries k m.entries = lookupEntries k n.entries) : m.index k = n.index k := by
  unfold GoMap.index
  rw [h]

theorem scan_eq_nil_iff (s : Store) (p : GoString × KeyValue → Bool) :
    (s.m.entries.filter p).map Prod.snd = [] ↔
      ∀ (k : GoString) (r : KeyValue), s.Get k = (r, none) → p (k, r) = false := by
  rw [List.map_eq_nil_iff, List.filter_eq_nil_iff]
  constructor
  · intro h k r hget
    have := h (k, r) ((Get_eq_found_iff s k r).1 hget)
    simpa using this
  · intro h e he
    have := h e.1 e.2 ((Get_eq_found_iff s e.1 e.2).2 he)
    simp [this]

theorem Bool_eq_false_iff_not (b : Bool) (P : Prop) (h : b = true ↔ P) : b = false ↔ ¬ P := by
  cases b <;> simp_all

theorem view_call_read (h : Heap) (s : StoreRef) (hs : s.m < h.objs.length) (c : Call)
    (hc : c.isRead = true) : s.view (s.call h c).2 = s.view h := by
  cases c with
  | Set k v => simp [Call.isRead] at hc
  | GetClone =>
    show Store.mk ((s.GetClone h).2.read s.m) = Store.mk (h.read s.m)
    rw [GetClone_frame s h s.m hs]
  | Get k => rfl
  | GetAll => rfl
  | GetWithPrefix p => rfl
  | GetKeysContaining str => rfl
  | GetValuesContaining str => rfl

/-! ## The claims, continued -/

/-- C11: no read operation mutates the store.  For every store s living in a
heap and every call of Get, GetAll, GetClone, GetWithPrefix, GetKeysContaining
or GetValuesContaining, with any argument, the key-to-record mapping of s after
the call is the mapping before the call; Set is the only call that is not a
read. -/
theorem C11_reads_do_not_mutate (h : Heap) (s : StoreRef) (hs : s.m < h.objs.length)
    (c : Call) (hc : c.isRead = true) :
    s.view (s.call h c).2 = s.view h ∧
    (∀ c2 : Call, c2.isRead = false ↔ ∃ k v, c2 = Call.Set k v) := by
  refine ⟨view_call_read h s hs c hc, fun c2 => ?_⟩
  cases c2 <;> simp [Call.isRead]

/-- C11, at the store holding "foo" -> ("foo", "baz") and the call GetClone(). -/
theorem C11_reads_do_not_mutate_witness :
    (StoreRef.mk 0).m < (Heap.mk [(New.Set (ascii "foo") (ascii "baz")).m]).objs.length ∧
    Call.GetClone.isRead = true ∧
    (StoreRef.mk 0).view
        ((StoreRef.mk 0).call (Heap.mk [(New.Set (ascii "foo") (ascii "baz")).m]) Call.GetClone).2
      = (StoreRef.mk 0).view (Heap.mk [(New.Set (ascii "foo") (ascii "baz")).m]) :=
  ⟨by decide, rfl,
   (C11_reads_do_not_mutate (Heap.mk [(New.Set (ascii "foo") (ascii "baz")).m]) (StoreRef.mk 0)
     (by decide) Call.GetClone rfl).1⟩

/-- C12: GetAll, GetWithPrefix, GetKeysContaining and GetValuesContaining are
total and return a sequence, their result type having no error component; for
every store and every string argument the sequence is empty when the store is
empty, and the sequence of a scan is empty when no stored record matches the
argument (no key starting with it, no key containing it, no value containing
it). -/
theorem C12_scans_empty (s : Store) (str : GoString) :
    (s.m.len = 0 →
      s.GetAll = [] ∧ s.GetWithPrefix str = [] ∧ s.GetKeysContaining str = [] ∧
        s.GetValuesContaining str = []) ∧
    ((∀ (k : GoString) (r : KeyValue), s.Get k = (r, none) → ¬ str <+: k) →
      s.GetWithPrefix str = []) ∧
    ((∀ (k : GoString) (r : KeyValue), s.Get k = (r, none) → ¬ str <:+: k) →
      s.GetKeysContaining str = []) ∧
    ((∀ (k : GoString) (r : KeyValue), s.Get k = (r, none) → ¬ str <:+: r.Value) →
      s.GetValuesContaining str = []) := by
  refine ⟨fun h0 => ?_, fun hno => ?_, fun hno => ?_, fun hno => ?_⟩
  · have he : s.m.entries = [] := List.length_eq_zero.1 h0
    rw [GetAll_eq, GetWithPrefix_eq, GetKeysContaining_eq, GetValuesContaining_eq, he]
    simp
  · rw [GetWithPrefix_eq, scan_eq_nil_iff]
    intro k r hget
    exact (Bool_eq_false_iff_not _ _ (HasPrefix_iff k str)).2 (hno k r hget)
  · rw [GetKeysContaining_eq, scan_eq_nil_iff]
    intro k r hget
    exact (Bool_eq_false_iff_not _ _ (Contains_iff k str)).2 (hno k r hget)
  · rw [GetValuesContaining_eq, scan_eq_nil_iff]
    intro k r hget
    exact (Bool_eq_false_iff_not _ _ (Contains_iff r.Value str)).2 (hno k r hget)

/-- C12, on the empty store New() and on the store holding "lol" -> "5", where
no key contains "tr". -/
theorem C12_scans_empty_witness :
    New.m.len = 0 ∧
    (New.GetAll = [] ∧ New.GetWithPrefix (ascii "x") = [] ∧
      New.GetKeysContaining (ascii "x") = [] ∧ New.GetValuesContaining (ascii "x") = []) ∧
    (New.Set (ascii "lol") (ascii "5")).GetKeysContaining (ascii "tr") = [] :=
  ⟨rfl, (C12_scans_empty New (ascii "x")).1 rfl,
   (C12_scans_empty (New.Set (ascii "lol") (ascii "5")) (ascii "tr")).2.2.1 (by
     intro k r hget
     rw [Get_eq_found_iff] at hget
     have hk : k = ascii "lol" := by
       simp only [Store.Set, GoMap.assign, New, GoMap.make, assignEntries, List.mem_singleton,
         Prod.mk.injEq] at hget
       exact hget.1
     rw [hk, ← Contains_iff]
     decide)⟩

/-- C15: Set(k, v) changes only the entry for k.  For every store s, keys k
and k2 with k2 different from k, and value v, Get(k2) returns the same record
and the same error after Set(k, v) as before it. -/
theorem C15_set_changes_only_its_key (s : Store) (k k2 v : GoString) (hne : k2 ≠ k) :
    (s.Set k v).Get k2 = s.Get k2 := by
  apply Get_eq_of_lookup
  rw [lookup_Set, if_neg hne]

/-- C15, at the store holding "foo" -> "bar", written with Set("baz", "doe"),
read at "foo" and at the absent key "qux". -/
theorem C15_set_changes_only_its_key_witness :
    ascii "foo" ≠ ascii "baz" ∧
    ((New.Set (ascii "foo") (ascii "bar")).Set (ascii "baz") (ascii "doe")).Get (ascii "foo")
      = (New.Set (ascii "foo") (ascii "bar")).Get (ascii "foo") :=
  ⟨by decide,
   C15_set_changes_only_its_key (New.Set (ascii "foo") (ascii "bar")) (ascii "baz") (ascii "foo")
     (ascii "doe") (by decide)⟩

/-- C16: for every store and every key k, the message of the error returned by
Get(k) is "key does not exist: " followed by k when the store does not contain
k, and there is no error when it does; in general the message of
KeyError{Key: k, Err: e} is the message of e, then ": ", then k. -/
theorem C16_error_message :
    (∀ (s : Store) (k : GoString),
      (s.Get k).2.map GoError.Error =
        if (s.m.index k).2 = true then none else some (ascii "key does not exist: " ++ k)) ∧
    (∀ (k : GoString) (e : GoError),
      (GoError.KeyError k e).Error = e.Error ++ ascii ": " ++ k) := by
  refine ⟨fun s k => ?_, fun k e => rfl⟩
  have hmsg : (GoError.KeyError k ErrNotFound).Error = ascii "key does not exist: " ++ k := by
    have h1 : ErrNotFound.Error ++ ascii ": " = ascii "key does not exist: " := by decide
    show ErrNotFound.Error ++ ascii ": " ++ k = _
    rw [h1]
  unfold Store.Get
  cases hidx : s.m.index k with
  | mk kv ok =>
    cases ok with
    | true => simp
    | false => simp [hmsg]

/-! ## Lemmas for the claims on counts, algebra of `Set` and the lock -/

theorem mem_keys_applySets (ops : List (GoString × GoString)) (k : GoString) :
    k ∈ (applySets ops New).m.entries.map Prod.fst ↔ k ∈ ops.map Prod.fst := by
  rw [← not_iff_not, ← lookupEntries_eq_none_iff, ← lastValue_eq_none_iff, lookup_applySets]
  cases hl : lastValue k ops <;> simp [New, GoMap.make, lookupEntries]

theorem keys_GetAll (s : Store) (hinv : s.KeyInv) :
    s.GetAll.map KeyValue.Key = s.m.entries.map Prod.fst := by
  rw [GetAll_eq, List.map_map]
  exact List.map_congr_left (fun e he => hinv e he)

theorem scan_subset (es : List (GoString × KeyValue)) (p q : GoString × KeyValue → Bool)
    (hpq : ∀ e, p e = true → q e = true) :
    (es.filter p).map Prod.snd ⊆ (es.filter q).map Prod.snd := by
  intro r hr
  rw [List.mem_map] at hr ⊢
  obtain ⟨e, he, rfl⟩ := hr
  rw [List.mem_filter] at he
  exact ⟨e, List.mem_filter.2 ⟨he.1, hpq e he.2⟩, rfl⟩

theorem scan_subset_all (es : List (GoString × KeyValue)) (p : GoString × KeyValue → Bool) :
    (es.filter p).map Prod.snd ⊆ es.map Prod.snd :=
  (List.filter_sublist es).subset.trans (List.Subset.refl _) |> List.map_subset Prod.snd

theorem lockHeldFrom_range_unlock (es : List (GoString × KeyValue)) :
    lockHeldFrom true (es.map (fun e => Access.rangeNext e.1) ++ [Access.unlock]) = true := by
  induction es with
  | nil => rfl
  | cons e rest ih => simpa [lockHeldFrom] using ih

/-- The three filtering scans hold the lock at each access to the map. -/
theorem lockHeld_scans (s : Store) (str : GoString) :
    lockHeld (s.GetWithPrefixAccesses str) = true ∧
    lockHeld (s.GetKeysContainingAccesses str) = true ∧
    lockHeld (s.GetValuesContainingAccesses str) = true := by
  have h : lockHeld (Access.lock :: rangeAccesses s ++ [Access.unlock]) = true := by
    simp [lockHeld, lockHeldFrom, rangeAccesses, lockHeldFrom_range_unlock]
  exact ⟨h, h, h⟩

/-- On every store, `GetAll` and `GetClone` touch the map without the lock. -/
theorem lockHeld_GetAll_GetClone (s : Store) :
    lockHeld s.GetAllAccesses = false ∧ lockHeld s.GetCloneAccesses = false := by
  constructor <;> simp [lockHeld, lockHeldFrom, Store.GetAllAccesses, Store.GetCloneAccesses,
    rangeAccesses]

/-! ## The claims on the lock, on counts and on the algebra of `Set` -/

/-- C13, evaluated on the store holding "foo" -> "bar": GetWithPrefix,
GetKeysContaining and GetValuesContaining hold the lock at every access to the
map, while GetAll and GetClone traverse the map without taking the lock. -/
theorem C13_getall_getclone_take_no_lock :
    lockHeld ((New.Set (ascii "foo") (ascii "bar")).GetWithPrefixAccesses (ascii "f")) = true ∧
    lockHeld ((New.Set (ascii "foo") (ascii "bar")).GetKeysContainingAccesses (ascii "f")) = true ∧
    lockHeld ((New.Set (ascii "foo") (ascii "bar")).GetValuesContainingAccesses (ascii "b")) = true ∧
    (New.Set (ascii "foo") (ascii "bar")).GetAllAccesses
      = [Access.mapLen, Access.rangeBegin, Access.rangeNext (ascii "foo")] ∧
    lockHeld (New.Set (ascii "foo") (ascii "bar")).GetAllAccesses = false ∧
    (New.Set (ascii "foo") (ascii "bar")).GetCloneAccesses
      = [Access.rangeBegin, Access.rangeNext (ascii "foo")] ∧
    lockHeld (New.Set (ascii "foo") (ascii "bar")).GetCloneAccesses = false := by
  decide

/-- C17: after any finite sequence of Set calls applied to New(), the length
of the result of GetAll() is the number of distinct keys among those calls, and
no two elements of the result have the same Key. -/
theorem C17_getall_one_record_per_key (ops : List (GoString × GoString)) :
    (applySets ops New).GetAll.length = (ops.map Prod.fst).dedup.length ∧
    ((applySets ops New).GetAll.map KeyValue.Key).Nodup := by
  have hinv := KeyInv_applySets ops New KeyInv_New
  have hkeys := keys_GetAll _ hinv
  have hnd : ((applySets ops New).GetAll.map KeyValue.Key).Nodup := by
    rw [hkeys]
    exact (applySets ops New).m.nodup
  refine ⟨?_, hnd⟩
  have hperm : ((applySets ops New).GetAll.map KeyValue.Key).Perm (ops.map Prod.fst).dedup := by
    rw [List.perm_ext_iff_of_nodup hnd (List.nodup_dedup _)]
    intro k
    rw [hkeys, mem_keys_applySets, List.mem_dedup]
  have hlen := hperm.length_eq
  rw [List.length_map] at hlen
  exact hlen

/-- C18: overwrite absorbs the earlier write.  For every store s, key k and
values v1, v2, the store after Set(k, v1) then Set(k, v2) maps every key as the
store after Set(k, v2) alone does; and Set(k, v2) twice maps every key as
Set(k, v2) once does. -/
theorem C18_set_overwrite_absorbs (s : Store) (k v1 v2 : GoString) :
    (∀ k2 : GoString, ((s.Set k v1).Set k v2).m.index k2 = (s.Set k v2).m.index k2) ∧
    (∀ k2 : GoString, ((s.Set k v2).Set k v2).m.index k2 = (s.Set k v2).m.index k2) := by
  constructor <;>
  · intro k2
    apply index_eq_of_lookup
    simp only [lookup_Set]
    by_cases h : k2 = k <;> simp [h]

/-- C19: Set calls on distinct keys commute.  For every store s, keys k1 and
k2 with k1 different from k2, and values v1, v2, the store after Set(k1, v1)
then Set(k2, v2) maps every key as the store after Set(k2, v2) then
Set(k1, v1) does. -/
theorem C19_set_distinct_keys_commute (s : Store) (k1 k2 v1 v2 : GoString) (hne : k1 ≠ k2)
    (k : GoString) :
    ((s.Set k1 v1).Set k2 v2).m.index k = ((s.Set k2 v2).Set k1 v1).m.index k := by
  apply index_eq_of_lookup
  rw [lookup_Set, lookup_Set, lookup_Set, lookup_Set]
  by_cases h1 : k = k1
  · have h2 : ¬ k = k2 := fun e => hne (h1.symm.trans e)
    simp [h1, h2, hne]
  · simp [h1]

/-- C19, at New() with Set("foo", "bar") and Set("baz", "doe"), read at "foo". -/
theorem C19_set_distinct_keys_commute_witness :
    ascii "foo" ≠ ascii "baz" ∧
    ((New.Set (ascii "foo") (ascii "bar")).Set (ascii "baz") (ascii "doe")).m.index (ascii "foo")
      = ((New.Set (ascii "baz") (ascii "doe")).Set (ascii "foo") (ascii "bar")).m.index
          (ascii "foo") :=
  ⟨by decide,
   C19_set_distinct_keys_commute New (ascii "foo") (ascii "baz") (ascii "bar") (ascii "doe")
     (by decide) (ascii "foo")⟩

/-- C20: on a store built from New() by Set calls, every record returned by
GetWithPrefix(p) is returned by GetKeysContaining(p), and every record returned
by GetWithPrefix(p), GetKeysContaining(p) or GetValuesContaining(p) is returned
by GetAll(). -/
theorem C20_scan_results_nested (ops : List (GoString × GoString)) (p : GoString) :
    (applySets ops New).GetWithPrefix p ⊆ (applySets ops New).GetKeysContaining p ∧
    (applySets ops New).GetWithPrefix p ⊆ (applySets ops New).GetAll ∧
    (applySets ops New).GetKeysContaining p ⊆ (applySets ops New).GetAll ∧
    (applySets ops New).GetValuesContaining p ⊆ (applySets ops New).GetAll := by
  rw [GetWithPrefix_eq, GetKeysContaining_eq, GetValuesContaining_eq, GetAll_eq]
  refine ⟨scan_subset _ _ _ ?_, scan_subset_all _ _, scan_subset_all _ _, scan_subset_all _ _⟩
  intro e he
  exact (Contains_iff _ _).2 ((HasPrefix_iff _ _).1 he).isInfix

/-! ## The tests of the source, evaluated on the embedding -/

/-- Source: `TestGet`. -/
theorem test_Get :
    ((New.Set (ascii "foo") (ascii "bar")).Get (ascii "foo")).1.Value = ascii "bar" ∧
    ((New.Set (ascii "foo") (ascii "bar")).Get (ascii "baz")).2
      = some (GoError.KeyError (ascii "baz") ErrNotFound) := by
  decide

/-- Source: `TestGetAll`. -/
theorem test_GetAll :
    New.GetAll = [] ∧
    ((New.Set (ascii "foo") (ascii "bar")).Set (ascii "baz") (ascii "doe")).GetAll
      = [⟨ascii "foo", ascii "bar"⟩, ⟨ascii "baz", ascii "doe"⟩] := by
  decide

/-- Source: `TestGetClone`, with the store in a heap of one map object. -/
theorem test_GetClone :
    (StoreRef.mk 0).Get
      (((StoreRef.mk 0).GetClone (Heap.mk [(New.Set (ascii "foo") (ascii "baz")).m])).2.assign
        ((StoreRef.mk 0).GetClone (Heap.mk [(New.Set (ascii "foo") (ascii "baz")).m])).1
        (ascii "foo") ⟨ascii "bar", ascii "bar"⟩) (ascii "foo")
      = (⟨ascii "foo", ascii "baz"⟩, none) := by
  decide

/-- Source: `TestGetWithPrefix`. -/
theorem test_GetWithPrefix :
    (applySets [(ascii "pre-foo", ascii "1"), (ascii "pre-bar", ascii "2"),
        (ascii "foo-bar", ascii "4"), (ascii "bazbar", ascii "5")] New).GetWithPrefix (ascii "pre")
      = [⟨ascii "pre-foo", ascii "1"⟩, ⟨ascii "pre-bar", ascii "2"⟩] := by
  decide

/-- Source: `TestGetKeysContaining`. -/
theorem test_GetKeysContaining :
    (applySets [(ascii "megatron", ascii "1"), (ascii "lol", ascii "5")] New).GetKeysContaining
      (ascii "tr") = [⟨ascii "megatron", ascii "1"⟩] := by
  decide

/-- Source: `TestGetValuesContaining`. -/
theorem test_GetValuesContaining :
    (applySets [(ascii "1", ascii "foo_bar"), (ascii "2", ascii "s_foo_b")] New).GetValuesContaining
      (ascii "foo") = [⟨ascii "1", ascii "foo_bar"⟩, ⟨ascii "2", ascii "s_foo_b"⟩] := by
  decide

end SimpleKV
